import Mathlib

/-!
Verification of the LegalDocAI matching-and-drafting pipeline.

Shallow embedding of the core pipeline of the repository:
* `chunk_text` (document_service.py) — overlapping window chunking;
* `toSnakeCase` and variable deduplication (template_service.py);
* cosine-similarity candidate ranking, the language-model arbiter and the
  confidence-gated web-search escalation (draft_service.py `match_template`);
* the draft-instance state machine (draft_service.py, models/template.py);
* `{{key}}` substitution rendering (draft_service.py `generate_draft`);
* the question-generation fallback (gemini_service `generate_questions`).

Python strings are modelled as `List Char` (ASCII behaviour for the
case-conversion helpers), machine floats as `ℚ`, JSON-ish records as
structures, and fallible code as `Except`/`Option`.  External oracles
(Gemini, Exa, sklearn's cosine) are opaque collaborators and enter the
model as explicit inputs / function parameters.
-/

/-! ### ASCII character helpers (Python `str.lower`/`str.title`/regex classes) -/

/-- ASCII lowercase test, Python regex class `[a-z]`. -/
def isLowerA (c : Char) : Bool := 97 ≤ c.toNat && c.toNat ≤ 122

/-- ASCII uppercase test, Python regex class `[A-Z]`. -/
def isUpperA (c : Char) : Bool := 65 ≤ c.toNat && c.toNat ≤ 90

/-- ASCII digit test, Python regex class `[0-9]`. -/
def isDigitA (c : Char) : Bool := 48 ≤ c.toNat && c.toNat ≤ 57

/-- ASCII letter test. -/
def isAlphaA (c : Char) : Bool := isLowerA c || isUpperA c

/-- ASCII lower-casing, Python `str.lower` restricted to ASCII. -/
def toLowerA (c : Char) : Char :=
  if isUpperA c then Char.ofNat (c.toNat + 32) else c

/-- ASCII upper-casing, Python `str.upper` restricted to ASCII. -/
def toUpperA (c : Char) : Char :=
  if isLowerA c then Char.ofNat (c.toNat - 32) else c

/-! ### Chunking (`DocumentService.chunk_text`) -/

/-- The `while start < text_length` loop of `chunk_text`, with an explicit
fuel argument (the loop advances `start` by `chunk_size - overlap` each
iteration; fuel `text.length + 1` is enough whenever `overlap < chunk_size`).
Each iteration emits the slice `text[start : start + chunkSize]`. -/
def chunkLoop (text : List Char) (chunkSize overlap : ℕ) : ℕ → ℕ → List (List Char)
  | 0, _ => []
  | fuel + 1, start =>
    if start < text.length then
      ((text.drop start).take chunkSize) ::
        chunkLoop text chunkSize overlap fuel (start + chunkSize - overlap)
    else []

/-- `DocumentService.chunk_text`: run the slicing loop; the Python function
returns `chunks if chunks else [text]`. -/
def chunk_text (text : List Char) (chunkSize overlap : ℕ) : List (List Char) :=
  let chunks := chunkLoop text chunkSize overlap (text.length + 1) 0
  if chunks.isEmpty then [text] else chunks

theorem chunkLoop_get (text : List Char) (cs ov : ℕ) (hov : ov < cs) :
    ∀ (fuel start : ℕ), text.length ≤ start + fuel * (cs - ov) →
      ∀ j, (chunkLoop text cs ov fuel start).get? j =
        if start + j * (cs - ov) < text.length then
          some ((text.drop (start + j * (cs - ov))).take cs)
        else none := by
  intro fuel
  induction fuel with
  | zero =>
    intro start hfuel j
    have h1 : ¬ (start + j * (cs - ov) < text.length) := by omega
    simp [chunkLoop, h1]
  | succ n ih =>
    intro start hfuel j
    by_cases hs : start < text.length
    · have hstep : start + cs - ov = start + (cs - ov) := by omega
      rw [chunkLoop, if_pos hs]
      cases j with
      | zero => simp [hs]
      | succ j' =>
        have hfuel' : text.length ≤ (start + (cs - ov)) + n * (cs - ov) := by
          have : start + (n + 1) * (cs - ov) = (start + (cs - ov)) + n * (cs - ov) := by ring
          omega
        have harg : (start + (cs - ov)) + j' * (cs - ov) = start + (j' + 1) * (cs - ov) := by
          ring
        simpa [hstep, harg] using ih (start + (cs - ov)) hfuel' j'
    · have h1 : ¬ (start + j * (cs - ov) < text.length) := by omega
      rw [chunkLoop, if_neg hs]
      simp [h1]

theorem chunkLoop_length (text : List Char) (cs ov : ℕ) (hov : ov < cs) :
    ∀ (fuel start : ℕ), text.length ≤ start + fuel * (cs - ov) →
      (chunkLoop text cs ov fuel start).length =
        ((text.length - start) + (cs - ov) - 1) / (cs - ov) := by
  have hspos : 0 < cs - ov := by omega
  intro fuel
  induction fuel with
  | zero =>
    intro start hfuel
    have h0 : text.length - start = 0 := by omega
    rw [chunkLoop]
    simp only [List.length_nil, h0]
    rw [Nat.zero_add]
    exact (Nat.div_eq_of_lt (by omega)).symm
  | succ n ih =>
    intro start hfuel
    by_cases hs : start < text.length
    · have hstep : start + cs - ov = start + (cs - ov) := by omega
      rw [chunkLoop, if_pos hs]
      have hfuel' : text.length ≤ (start + (cs - ov)) + n * (cs - ov) := by
        have : start + (n + 1) * (cs - ov) = (start + (cs - ov)) + n * (cs - ov) := by ring
        omega
      rw [List.length_cons, hstep, ih (start + (cs - ov)) hfuel']
      -- arithmetic identity: 1 + ((m - s) + s - 1)/s = (m + s - 1)/s for m ≥ 1
      set s := cs - ov with hsdef
      set m := text.length - start with hmdef
      have hm1 : 1 ≤ m := by omega
      have hright : text.length - (start + s) = m - s := by omega
      rw [hright]
      rcases Nat.lt_or_ge m (s + 1) with hle | hgt
      · -- m ≤ s
        have h1 : m - s + s - 1 = s - 1 ∨ m - s + s - 1 < s := by omega
        have hms : m - s + s - 1 < s := by omega
        rw [Nat.div_eq_of_lt hms]
        have hup : m + s - 1 = (m - 1) + s := by omega
        rw [hup, Nat.add_div_right _ hspos, Nat.div_eq_of_lt (by omega)]
      · -- m ≥ s + 1
        have hl : m - s + s - 1 = (m - s - 1) + s := by omega
        have hr : m + s - 1 = ((m - s - 1) + s) + s := by omega
        rw [hl, hr, Nat.add_div_right _ hspos, Nat.add_div_right _ hspos,
          Nat.add_div_right _ hspos]
    · have h0 : text.length - start = 0 := by omega
      rw [chunkLoop, if_neg hs]
      simp only [List.length_nil, h0]
      rw [Nat.zero_add]
      exact (Nat.div_eq_of_lt (by omega)).symm

/-- C1 — counterexample. The claim predicts `ceil((len−O)/(L−O))` windows
(`= 1` here, since `len = 4`, `L = 4`, `O = 1` gives `ceil(3/3) = 1`, and the
"shorter than L" clause does not apply), but `chunk_text` on the four-character
text "abcd" with chunk size 4 and overlap 1 produces 2 windows
(`["abcd", "d"]`): the loop keeps running while `start < len`, emitting a
trailing window even when the previous window already reached the end. -/
theorem C1_counterexample :
    (chunk_text ('a' :: 'b' :: 'c' :: 'd' :: []) 4 1).length = 2 ∧
    ((4 - 1) + (4 - 1) - 1) / (4 - 1) = 1 := by
  constructor
  · rfl
  · rfl

/-- C1 — amended. For every text and chunking configuration with chunk size
L strictly greater than overlap O ≥ 0, `chunk_text` produces windows in
left-to-right order (the j-th window is the slice of length L starting at
`j·(L−O)`) whose union covers every character index of the text; the number
of windows equals `ceil(len/(L−O))` for nonempty text and 1 for empty text —
not `ceil((len−O)/(L−O))` as the claim stated. -/
theorem C1_chunking_amended (text : List Char) (cs ov : ℕ) (hov : ov < cs) :
    ((chunk_text text cs ov).length =
      if text.length = 0 then 1 else (text.length + (cs - ov) - 1) / (cs - ov)) ∧
    (∀ j w, (chunk_text text cs ov).get? j = some w →
      w = (text.drop (j * (cs - ov))).take cs) ∧
    (∀ i, i < text.length → ∃ j w,
      (chunk_text text cs ov).get? j = some w ∧
      j * (cs - ov) ≤ i ∧ i < j * (cs - ov) + cs ∧
      w.get? (i - j * (cs - ov)) = text.get? i) := by
  have hspos : 0 < cs - ov := by omega
  have hfuel : text.length ≤ 0 + (text.length + 1) * (cs - ov) := by
    have h1 : text.length + 1 ≤ (text.length + 1) * (cs - ov) :=
      Nat.le_mul_of_pos_right _ hspos
    omega
  have hget := chunkLoop_get text cs ov hov (text.length + 1) 0 hfuel
  have hlen := chunkLoop_length text cs ov hov (text.length + 1) 0 hfuel
  by_cases hz : text.length = 0
  · -- empty text: the loop makes no iterations and `[text]` is returned
    have htext : text = [] := List.length_eq_zero.mp hz
    have hL : chunkLoop text cs ov (text.length + 1) 0 = [] := by
      apply List.length_eq_zero.mp
      rw [hlen, hz]
      exact Nat.div_eq_of_lt (by omega)
    have hct : chunk_text text cs ov = [text] := by
      simp [chunk_text, hL]
    refine ⟨?_, ?_, ?_⟩
    · simp [hct, hz]
    · intro j w hw
      rw [hct, htext] at hw
      cases j with
      | zero =>
        simp only [List.get?] at hw
        cases hw
        simp [htext]
      | succ j' => simp [List.get?] at hw
    · intro i hi
      omega
  · -- nonempty text: the loop output is returned as is
    have hlen' : (chunkLoop text cs ov (text.length + 1) 0).length =
        (text.length + (cs - ov) - 1) / (cs - ov) := by
      rw [hlen]
      simp
    have hpos : 0 < (chunkLoop text cs ov (text.length + 1) 0).length := by
      rw [hlen']
      have hrw : text.length + (cs - ov) - 1 = (text.length - 1) + (cs - ov) := by omega
      rw [hrw, Nat.add_div_right _ hspos]
      exact Nat.succ_pos _
    have hne : chunkLoop text cs ov (text.length + 1) 0 ≠ [] := by
      intro h
      rw [h] at hpos
      simp at hpos
    have hct : chunk_text text cs ov = chunkLoop text cs ov (text.length + 1) 0 := by
      simp [chunk_text, List.isEmpty_iff, hne]
    refine ⟨?_, ?_, ?_⟩
    · rw [hct, hlen']
      simp [hz]
    · intro j w hw
      rw [hct, hget j] at hw
      by_cases hc : 0 + j * (cs - ov) < text.length
      · rw [if_pos hc] at hw
        cases hw
        simp
      · rw [if_neg hc] at hw
        cases hw
    · intro i hi
      have hdm := Nat.div_add_mod i (cs - ov)
      have hmod := Nat.mod_lt i hspos
      have hcomm : i / (cs - ov) * (cs - ov) = (cs - ov) * (i / (cs - ov)) :=
        Nat.mul_comm _ _
      have hc1 : i / (cs - ov) * (cs - ov) ≤ i := by omega
      have hc2 : i < i / (cs - ov) * (cs - ov) + (cs - ov) := by omega
      refine ⟨i / (cs - ov), (text.drop (i / (cs - ov) * (cs - ov))).take cs, ?_, hc1,
        by omega, ?_⟩
      · rw [hct, hget (i / (cs - ov))]
        have hc : 0 + i / (cs - ov) * (cs - ov) < text.length := by omega
        rw [if_pos hc, Nat.zero_add]
      · have hlt : i - i / (cs - ov) * (cs - ov) < cs := by omega
        rw [List.get?_eq_getElem?, List.get?_eq_getElem?,
          List.getElem?_take_of_lt hlt, List.getElem?_drop]
        congr 1
        omega

/-- C1 — witness for the amended theorem at the concrete text "abcd" with
chunk size 4 and overlap 1 (count clause: 2 = ceil(4/3)). -/
theorem C1_witness :
    1 < 4 ∧
    (chunk_text ('a' :: 'b' :: 'c' :: 'd' :: []) 4 1).length =
      (if ('a' :: 'b' :: 'c' :: 'd' :: []).length = 0 then 1
       else (('a' :: 'b' :: 'c' :: 'd' :: []).length + (4 - 1) - 1) / (4 - 1)) :=
  ⟨by decide, (C1_chunking_amended ('a' :: 'b' :: 'c' :: 'd' :: []) 4 1 (by decide)).1⟩

/-! ### Key normalization (`TemplateService.to_snake_case`) -/

/-- Step 1 of `to_snake_case`: `text.replace(' ', '_').replace('-', '_')`. -/
def subSpaceHyphen (c : Char) : Char :=
  if c == ' ' || c == '-' then '_' else c

/-- Step 2 of `to_snake_case`: `re.sub('([a-z0-9])([A-Z])', r'\1_\2', text)` —
insert an underscore between a lowercase letter or digit and an uppercase
letter (matches cannot overlap, so the pairwise insertion coincides with the
regex substitution). -/
def camelU : List Char → List Char
  | [] => []
  | [c] => [c]
  | c1 :: c2 :: rest =>
    if (isLowerA c1 || isDigitA c1) && isUpperA c2 then
      c1 :: '_' :: camelU (c2 :: rest)
    else
      c1 :: camelU (c2 :: rest)

/-- Characters kept by step 3's `re.sub(r'[^a-z0-9_]', '', ·)`. -/
def isSnakeChar (c : Char) : Bool := isLowerA c || isDigitA c || c == '_'

/-- Step 4 of `to_snake_case`: `re.sub(r'_+', '_', text)` — collapse runs of
underscores to a single underscore. -/
def collapseU : List Char → List Char
  | [] => []
  | [c] => [c]
  | a :: b :: rest =>
    if a == '_' && b == '_' then collapseU (b :: rest)
    else a :: collapseU (b :: rest)

/-- Step 5 of `to_snake_case`: `text.strip('_')`. -/
def stripU (l : List Char) : List Char :=
  ((l.dropWhile (· == '_')).reverse.dropWhile (· == '_')).reverse

/-- `TemplateService.to_snake_case`, composed from the five steps of the
Python function (ASCII behaviour of `str.lower`). -/
def to_snake_case (s : String) : String :=
  let t1 := s.data.map subSpaceHyphen
  let t2 := camelU t1
  let t3 := (t2.map toLowerA).filter isSnakeChar
  let t4 := collapseU t3
  String.mk (stripU t4)

/-! ### Variable deduplication (`TemplateService.process_uploaded_document`) -/

/-- A variable record proposed by the extraction oracle for one chunk: the
raw key plus the rest of the payload (label standing in for the remaining
fields, which the dedup logic never inspects). -/
structure RawVar where
  key : String
  label : String
deriving DecidableEq, Repr

/-- Key normalization applied to each proposed variable
(`var["key"] = self.to_snake_case(original_key)`). -/
def normVar (v : RawVar) : RawVar :=
  { v with key := to_snake_case v.key }

/-- The inner loop of `process_uploaded_document` over one chunk's proposed
variables: normalize the key, then append unless some accumulated variable
already has that key (`if not any(v["key"] == var["key"] ...)`). -/
def addVars (acc : List RawVar) (vars : List RawVar) : List RawVar :=
  vars.foldl
    (fun acc v =>
      let v' := normVar v
      if acc.any (fun w => w.key == v'.key) then acc else acc ++ [v'])
    acc

/-- The accumulation of `all_variables` over all chunk extraction results in
`process_uploaded_document` (metadata handling elided: it does not touch the
variable list). -/
def process_uploaded_vars (chunkResults : List (List RawVar)) : List RawVar :=
  chunkResults.foldl addVars []

/-- Characters kept by step 3 are ASCII lowercase, digits, or underscore. -/
theorem isSnakeChar_ranges {c : Char} (h : isSnakeChar c = true) :
    (97 ≤ c.toNat ∧ c.toNat ≤ 122) ∨ (48 ≤ c.toNat ∧ c.toNat ≤ 57) ∨ c.toNat = 95 := by
  simp only [isSnakeChar, isLowerA, isDigitA, Bool.or_eq_true, Bool.and_eq_true,
    decide_eq_true_eq, beq_iff_eq] at h
  rcases h with (h | h) | h
  · exact Or.inl h
  · exact Or.inr (Or.inl h)
  · subst h
    exact Or.inr (Or.inr rfl)

theorem snake_ne_of_toNat {c d : Char} (h : isSnakeChar c = true)
    (hd : d.toNat < 48 ∨ (57 < d.toNat ∧ d.toNat < 95) ∨ (95 < d.toNat ∧ d.toNat < 97) ∨
      122 < d.toNat) : c ≠ d := by
  intro he
  subst he
  rcases isSnakeChar_ranges h with h1 | h1 | h1 <;> omega

/-- Step 1 fixes every kept character. -/
theorem subSpaceHyphen_fix {c : Char} (h : isSnakeChar c = true) :
    subSpaceHyphen c = c := by
  have h1 : c ≠ ' ' := snake_ne_of_toNat h (by decide)
  have h2 : c ≠ '-' := snake_ne_of_toNat h (by decide)
  simp [subSpaceHyphen, h1, h2]

theorem isUpperA_eq_false_of_snake {c : Char} (h : isSnakeChar c = true) :
    isUpperA c = false := by
  cases hu : isUpperA c with
  | false => rfl
  | true =>
    exfalso
    simp only [isUpperA, Bool.and_eq_true, decide_eq_true_eq] at hu
    rcases isSnakeChar_ranges h with h1 | h1 | h1 <;> omega

/-- Step 3's lower-casing fixes every kept character. -/
theorem toLowerA_fix {c : Char} (h : isSnakeChar c = true) : toLowerA c = c := by
  simp [toLowerA, isUpperA_eq_false_of_snake h]

theorem map_fix {α : Type} {f : α → α} : ∀ {l : List α}, (∀ c ∈ l, f c = c) → l.map f = l
  | [], _ => rfl
  | a :: t, h => by
    rw [List.map_cons, h a (by simp), map_fix (fun c hc => h c (List.mem_cons_of_mem a hc))]

/-- Step 2 is the identity on a string with no ASCII uppercase letter. -/
theorem camelU_fix (l : List Char) (h : ∀ c ∈ l, isUpperA c = false) :
    camelU l = l := by
  induction l with
  | nil => rfl
  | cons a t ih =>
    cases t with
    | nil => rfl
    | cons b rest =>
      have hb : isUpperA b = false := h b (by simp)
      have ht : camelU (b :: rest) = b :: rest :=
        ih (fun c hc => h c (List.mem_cons_of_mem a hc))
      simp [camelU, hb, ht]

/-- Adjacent-underscore freedom, the invariant established by step 4. -/
def PU (a b : Char) : Prop := ¬(a = '_' ∧ b = '_')

theorem head?_collapseU : ∀ l : List Char, (collapseU l).head? = l.head? := by
  intro l
  induction l with
  | nil => rfl
  | cons a t ih =>
    cases t with
    | nil => rfl
    | cons b rest =>
      by_cases hab : a = '_' ∧ b = '_'
      · have hc : (a == '_' && b == '_') = true := by simp [hab.1, hab.2]
        rw [collapseU, if_pos hc, ih]
        rw [hab.1, hab.2]
        rfl
      · have hc : (a == '_' && b == '_') = false := by
          by_cases ha : a = '_'
          · have hb : b ≠ '_' := fun hb => hab ⟨ha, hb⟩
            simp [hb]
          · simp [ha]
        rw [collapseU, hc]
        simp

theorem mem_collapseU {c : Char} : ∀ {l : List Char}, c ∈ collapseU l → c ∈ l := by
  intro l
  induction l with
  | nil => exact fun h => h
  | cons a t ih =>
    cases t with
    | nil => exact fun h => h
    | cons b rest =>
      intro h
      rw [collapseU] at h
      by_cases hc : (a == '_' && b == '_') = true
      · rw [if_pos hc] at h
        exact List.mem_cons_of_mem a (ih h)
      · rw [if_neg hc] at h
        rcases List.mem_cons.mp h with h1 | h1
        · simp [h1]
        · exact List.mem_cons_of_mem a (ih h1)

theorem chain'_collapseU : ∀ l : List Char, List.Chain' PU (collapseU l) := by
  intro l
  induction l with
  | nil => exact List.chain'_nil
  | cons a t ih =>
    cases t with
    | nil => exact List.chain'_singleton a
    | cons b rest =>
      by_cases hc : (a == '_' && b == '_') = true
      · rw [collapseU, if_pos hc]
        exact ih
      · rw [collapseU, if_neg hc]
        refine List.chain'_cons'.mpr ⟨?_, ih⟩
        intro y hy
        rw [head?_collapseU (b :: rest)] at hy
        simp only [List.head?_cons, Option.mem_def, Option.some.injEq] at hy
        subst hy
        simp only [Bool.and_eq_true, beq_iff_eq] at hc
        exact hc

theorem collapseU_fix : ∀ l : List Char, List.Chain' PU l → collapseU l = l := by
  intro l
  induction l with
  | nil => exact fun _ => rfl
  | cons a t ih =>
    cases t with
    | nil => exact fun _ => rfl
    | cons b rest =>
      intro h
      have h1 := List.chain'_cons'.mp h
      have hab : PU a b := h1.1 b rfl
      have hc : (a == '_' && b == '_') = false := by
        simp only [PU, not_and] at hab
        simp only [Bool.and_eq_false_iff, beq_eq_false_iff_ne, ne_eq]
        by_cases ha : a = '_'
        · exact Or.inr (hab ha)
        · exact Or.inl ha
      rw [collapseU, hc]
      simp only [Bool.false_eq_true, if_false]
      rw [ih h1.2]

theorem head?_dropWhile_q {q : Char → Bool} :
    ∀ {l : List Char} {a : Char}, (l.dropWhile q).head? = some a → q a = false := by
  intro l
  induction l with
  | nil => intro a h; simp [List.dropWhile] at h
  | cons c t ih =>
    intro a h
    rw [List.dropWhile_cons] at h
    by_cases hq : q c = true
    · rw [if_pos hq] at h
      exact ih h
    · rw [if_neg hq] at h
      simp only [List.head?_cons, Option.some.injEq] at h
      subst h
      exact Bool.eq_false_iff.mpr hq

theorem chain'_dropWhile {R : Char → Char → Prop} (q : Char → Bool) :
    ∀ l : List Char, List.Chain' R l → List.Chain' R (l.dropWhile q) := by
  intro l
  induction l with
  | nil => exact fun h => h
  | cons c t ih =>
    intro h
    rw [List.dropWhile_cons]
    by_cases hq : q c = true
    · rw [if_pos hq]
      exact ih (List.chain'_cons'.mp h).2
    · rw [if_neg hq]
      exact h

theorem dropWhile_eq_self_of_head {q : Char → Bool} {l : List Char}
    (h : ∀ a, l.head? = some a → q a = false) : l.dropWhile q = l := by
  cases l with
  | nil => rfl
  | cons c t =>
    rw [List.dropWhile_cons, if_neg]
    simp [h c rfl]

theorem mem_stripU {c : Char} {l : List Char} (h : c ∈ stripU l) : c ∈ l := by
  unfold stripU at h
  rw [List.mem_reverse] at h
  have h1 := (List.dropWhile_sublist (fun x => x == '_')).subset h
  rw [List.mem_reverse] at h1
  exact (List.dropWhile_sublist (fun x => x == '_')).subset h1

theorem head?_stripU {l : List Char} {a : Char} (h : (stripU l).head? = some a) :
    a ≠ '_' := by
  unfold stripU at h
  rw [List.head?_reverse] at h
  set y := l.dropWhile (fun x => x == '_') with hy
  set z := y.reverse.dropWhile (fun x => x == '_') with hz
  have hzne : z ≠ [] := by
    intro h0
    rw [h0] at h
    simp at h
  have hsplit : y.reverse.takeWhile (fun x => x == '_') ++ z = y.reverse :=
    List.takeWhile_append_dropWhile _ _
  have hgl : z.getLast? = y.reverse.getLast? := by
    rw [← hsplit, List.getLast?_append_of_ne_nil _ hzne]
  rw [hgl, List.getLast?_reverse] at h
  have := head?_dropWhile_q h
  simpa using this

theorem getLast?_stripU {l : List Char} {a : Char} (h : (stripU l).getLast? = some a) :
    a ≠ '_' := by
  unfold stripU at h
  rw [List.getLast?_reverse] at h
  have := head?_dropWhile_q h
  simpa using this

theorem chain'_stripU {l : List Char} (h : List.Chain' PU l) :
    List.Chain' PU (stripU l) := by
  have hsymm : ∀ a b, PU a b → PU b a := by
    intro a b hab hba
    exact hab ⟨hba.2, hba.1⟩
  have h1 : List.Chain' PU (l.dropWhile (fun x => x == '_')) := chain'_dropWhile _ _ h
  have h2 : List.Chain' PU (l.dropWhile (fun x => x == '_')).reverse :=
    List.chain'_reverse.mpr (h1.imp (fun a b hab => hsymm a b hab))
  have h3 := chain'_dropWhile (fun x => x == '_') _ h2
  exact List.chain'_reverse.mpr (h3.imp (fun a b hab => hsymm a b hab))

theorem stripU_fix {l : List Char} (h1 : ∀ a, l.head? = some a → a ≠ '_')
    (h2 : ∀ a, l.getLast? = some a → a ≠ '_') : stripU l = l := by
  unfold stripU
  have e1 : l.dropWhile (fun x => x == '_') = l := by
    apply dropWhile_eq_self_of_head
    intro a ha
    simpa using h1 a ha
  rw [e1]
  have e2 : l.reverse.dropWhile (fun x => x == '_') = l.reverse := by
    apply dropWhile_eq_self_of_head
    intro a ha
    rw [List.head?_reverse] at ha
    simpa using h2 a ha
  rw [e2, List.reverse_reverse]

/-- The invariant characterizing `to_snake_case` output: only lowercase
ASCII letters, digits and underscores, no two adjacent underscores, and no
leading or trailing underscore. -/
def snakeInv (l : List Char) : Prop :=
  (∀ c ∈ l, isSnakeChar c = true) ∧ List.Chain' PU l ∧
  (∀ a, l.head? = some a → a ≠ '_') ∧ (∀ a, l.getLast? = some a → a ≠ '_')

theorem to_snake_case_inv (s : String) : snakeInv (to_snake_case s).data := by
  refine ⟨?_, ?_, ?_, ?_⟩
  · intro c hc
    have h1 := mem_collapseU (mem_stripU hc)
    exact (List.mem_filter.mp h1).2
  · exact chain'_stripU (chain'_collapseU _)
  · exact fun a ha => head?_stripU ha
  · exact fun a ha => getLast?_stripU ha

theorem to_snake_case_fix (l : List Char) (h : snakeInv l) :
    to_snake_case (String.mk l) = String.mk l := by
  obtain ⟨hall, hchain, hhd, hlast⟩ := h
  unfold to_snake_case
  have e1 : l.map subSpaceHyphen = l := map_fix (fun c hc => subSpaceHyphen_fix (hall c hc))
  have e2 : camelU l = l := camelU_fix l (fun c hc => isUpperA_eq_false_of_snake (hall c hc))
  have e3 : l.map toLowerA = l := map_fix (fun c hc => toLowerA_fix (hall c hc))
  have e4 : l.filter isSnakeChar = l := List.filter_eq_self.mpr hall
  have e5 : collapseU l = l := collapseU_fix l hchain
  show String.mk
      (stripU (collapseU (((camelU (l.map subSpaceHyphen)).map toLowerA).filter isSnakeChar))) =
    String.mk l
  rw [e1, e2, e3, e4, e5, stripU_fix hhd hlast]

/-- `to_snake_case` is idempotent: its output is already in canonical
snake_case form. -/
theorem to_snake_case_idem (s : String) :
    to_snake_case (to_snake_case s) = to_snake_case s := by
  have h := to_snake_case_fix (to_snake_case s).data (to_snake_case_inv s)
  simpa using h

/-- First-occurrence deduplication relative to already-accumulated variables:
the recursive shape of the `all_variables` accumulation (the accumulator
`acc` holds the variables found so far; the output lists only the new ones,
in order). -/
def dedupFirst (acc : List RawVar) : List RawVar → List RawVar
  | [] => []
  | v :: vs =>
    if acc.any (fun w => w.key == v.key) then dedupFirst acc vs
    else v :: dedupFirst (acc ++ [v]) vs

theorem foldl_step_eq_dedupFirst :
    ∀ (l : List RawVar) (acc : List RawVar),
      l.foldl (fun a v => if a.any (fun w => w.key == v.key) then a else a ++ [v]) acc =
        acc ++ dedupFirst acc l := by
  intro l
  induction l with
  | nil => intro acc; simp [dedupFirst]
  | cons v vs ih =>
    intro acc
    rw [List.foldl_cons, dedupFirst]
    by_cases hc : acc.any (fun w => w.key == v.key) = true
    · rw [if_pos hc]
      simp only [hc, if_true]
      exact ih acc
    · rw [if_neg hc]
      simp only [Bool.not_eq_true] at hc
      simp only [hc, Bool.false_eq_true, if_false]
      rw [ih (acc ++ [v])]
      simp

/-- `process_uploaded_vars` is first-occurrence dedup of the normalized,
chunk-order flattening of all proposed variables. -/
theorem foldl_map_normVar (l : List RawVar) :
    ∀ (acc : List RawVar),
      l.foldl (fun a v =>
          if a.any (fun w => w.key == (normVar v).key) then a else a ++ [normVar v]) acc =
        (l.map normVar).foldl
          (fun a v => if a.any (fun w => w.key == v.key) then a else a ++ [v]) acc := by
  induction l with
  | nil => intro acc; rfl
  | cons v vs ih =>
    intro acc
    rw [List.foldl_cons, List.map_cons, List.foldl_cons, ih]

theorem process_eq_dedupFirst (rs : List (List RawVar)) :
    process_uploaded_vars rs = dedupFirst [] ((rs.flatten).map normVar) := by
  have hfun : addVars = fun acc vars =>
      vars.foldl (fun a v =>
        if a.any (fun w => w.key == (normVar v).key) then a else a ++ [normVar v]) acc := by
    funext acc vars
    rfl
  rw [process_uploaded_vars, hfun, ← List.foldl_flatten, foldl_map_normVar,
    foldl_step_eq_dedupFirst]
  simp

theorem dedupFirst_fresh :
    ∀ (l acc : List RawVar) (v : RawVar), v ∈ dedupFirst acc l →
      acc.any (fun w => w.key == v.key) = false ∧ v ∈ l := by
  intro l
  induction l with
  | nil => intro acc v h; simp [dedupFirst] at h
  | cons u us ih =>
    intro acc v h
    rw [dedupFirst] at h
    by_cases hc : acc.any (fun w => w.key == u.key) = true
    · rw [if_pos hc] at h
      obtain ⟨h1, h2⟩ := ih acc v h
      exact ⟨h1, List.mem_cons_of_mem u h2⟩
    · rw [if_neg hc] at h
      rcases List.mem_cons.mp h with h1 | h1
      · subst h1
        exact ⟨Bool.eq_false_iff.mpr hc, List.mem_cons_self v us⟩
      · obtain ⟨h1', h2⟩ := ih (acc ++ [u]) v h1
        rw [List.any_append] at h1'
        simp only [Bool.or_eq_false_iff] at h1'
        exact ⟨h1'.1, List.mem_cons_of_mem u h2⟩

theorem dedupFirst_pairwise :
    ∀ (l acc : List RawVar),
      (dedupFirst acc l).Pairwise (fun a b => a.key ≠ b.key) := by
  intro l
  induction l with
  | nil => intro acc; simp [dedupFirst]
  | cons u us ih =>
    intro acc
    rw [dedupFirst]
    by_cases hc : acc.any (fun w => w.key == u.key) = true
    · rw [if_pos hc]
      exact ih acc
    · rw [if_neg hc]
      refine List.Pairwise.cons ?_ (ih (acc ++ [u]))
      intro b hb
      have h1 := (dedupFirst_fresh us (acc ++ [u]) b hb).1
      rw [List.any_append] at h1
      simp only [Bool.or_eq_false_iff, List.any_cons, List.any_nil, Bool.or_false] at h1
      intro he
      rw [he] at h1
      simp at h1

theorem dedupFirst_find? :
    ∀ (l acc : List RawVar) (v : RawVar), v ∈ dedupFirst acc l →
      l.find? (fun w => w.key == v.key) = some v := by
  intro l
  induction l with
  | nil => intro acc v h; simp [dedupFirst] at h
  | cons u us ih =>
    intro acc v h
    rw [dedupFirst] at h
    by_cases hc : acc.any (fun w => w.key == u.key) = true
    · rw [if_pos hc] at h
      have hfresh := (dedupFirst_fresh us acc v h).1
      have hne : (u.key == v.key) = false := by
        cases heq : (u.key == v.key) with
        | false => rfl
        | true =>
          exfalso
          rw [beq_iff_eq] at heq
          rw [← heq] at hfresh
          rw [hfresh] at hc
          exact Bool.false_ne_true hc
      rw [List.find?_cons_of_neg _ (by simp [hne]), ih acc v h]
    · rw [if_neg hc] at h
      rcases List.mem_cons.mp h with h1 | h1
      · subst h1
        exact List.find?_cons_of_pos _ (by simp)
      · have hfresh := (dedupFirst_fresh us (acc ++ [u]) v h1).1
        rw [List.any_append] at hfresh
        simp only [Bool.or_eq_false_iff, List.any_cons, List.any_nil, Bool.or_false] at hfresh
        rw [List.find?_cons_of_neg _ (by simp [hfresh.2]), ih (acc ++ [u]) v h1]

theorem dedupFirst_sublist :
    ∀ (l acc : List RawVar), (dedupFirst acc l).Sublist l := by
  intro l
  induction l with
  | nil => intro acc; simp [dedupFirst]
  | cons u us ih =>
    intro acc
    rw [dedupFirst]
    by_cases hc : acc.any (fun w => w.key == u.key) = true
    · rw [if_pos hc]
      exact (ih acc).cons u
    · rw [if_neg hc]
      exact (ih (acc ++ [u])).cons₂ u

theorem dedupFirst_complete :
    ∀ (l acc : List RawVar) (w : RawVar), w ∈ l →
      (∃ v ∈ acc, v.key = w.key) ∨ (∃ v ∈ dedupFirst acc l, v.key = w.key) := by
  intro l
  induction l with
  | nil => intro acc w h; simp at h
  | cons u us ih =>
    intro acc w h
    rw [dedupFirst]
    by_cases hc : acc.any (fun x => x.key == u.key) = true
    · rw [if_pos hc]
      rcases List.mem_cons.mp h with h1 | h1
      · subst h1
        obtain ⟨v, hv, hvk⟩ := List.any_eq_true.mp hc
        rw [beq_iff_eq] at hvk
        exact Or.inl ⟨v, hv, hvk⟩
      · exact ih acc w h1
    · rw [if_neg hc]
      rcases List.mem_cons.mp h with h1 | h1
      · refine Or.inr ⟨u, List.mem_cons_self u _, ?_⟩
        rw [h1]
      · rcases ih (acc ++ [u]) w h1 with ⟨v, hv, hvk⟩ | ⟨v, hv, hvk⟩
        · rcases List.mem_append.mp hv with h2 | h2
          · exact Or.inl ⟨v, h2, hvk⟩
          · simp only [List.mem_singleton] at h2
            rw [h2] at hvk
            exact Or.inr ⟨u, List.mem_cons_self u _, hvk⟩
        · exact Or.inr ⟨v, List.mem_cons_of_mem u hv, hvk⟩

theorem key_fixed_of_mem_map {a : RawVar} {l : List RawVar} (h : a ∈ l.map normVar) :
    to_snake_case a.key = a.key := by
  obtain ⟨u, _, hu⟩ := List.mem_map.mp h
  rw [← hu]
  exact to_snake_case_idem u.key

/-- C2. For every sequence of per-chunk extraction results, the variable list
accumulated by `process_uploaded_document` contains no two entries whose keys
normalize to the same snake_case form; for each normalized key the surviving
entry is the earliest proposal in chunk order (`find?` over the flattened
normalized proposal sequence returns exactly that entry); the output is a
sublist of that flattened sequence (insertion = first-seen order); and every
proposed key is represented. -/
theorem C2_dedup_first_wins (chunkResults : List (List RawVar)) :
    (process_uploaded_vars chunkResults).Pairwise
      (fun a b => to_snake_case a.key ≠ to_snake_case b.key) ∧
    (∀ v ∈ process_uploaded_vars chunkResults,
      ((chunkResults.flatten).map normVar).find? (fun w => w.key == v.key) = some v) ∧
    (process_uploaded_vars chunkResults).Sublist ((chunkResults.flatten).map normVar) ∧
    (∀ w ∈ (chunkResults.flatten).map normVar,
      ∃ v ∈ process_uploaded_vars chunkResults, v.key = w.key) := by
  rw [process_eq_dedupFirst]
  refine ⟨?_, ?_, ?_, ?_⟩
  · have hpw := dedupFirst_pairwise ((chunkResults.flatten).map normVar) []
    refine hpw.imp_of_mem ?_
    intro a b ha hb hne
    have hma : a ∈ (chunkResults.flatten).map normVar :=
      (dedupFirst_fresh _ [] a ha).2
    have hmb : b ∈ (chunkResults.flatten).map normVar :=
      (dedupFirst_fresh _ [] b hb).2
    rw [key_fixed_of_mem_map hma, key_fixed_of_mem_map hmb]
    exact hne
  · exact fun v hv => dedupFirst_find? _ [] v hv
  · exact dedupFirst_sublist _ []
  · intro w hw
    rcases dedupFirst_complete _ [] w hw with ⟨v, hv, _⟩ | h
    · simp at hv
    · exact h

/-- Concrete fixtures for the dedup witness: two chunks proposing the same
variable under raw keys "Full Name" and "full_name". -/
def rvA : RawVar := { key := "Full Name", label := "first" }

def rvB : RawVar := { key := "full_name", label := "second" }

/-- C2 — witness: with two chunks proposing keys "Full Name" then
"full_name", the first-chunk entry survives and `find?` over the flattened
normalized sequence returns it. -/
theorem C2_witness :
    (([[rvA], [rvB]].flatten).map normVar).find?
        (fun w => w.key == (normVar rvA).key) = some (normVar rvA) :=
  (C2_dedup_first_wins [[rvA], [rvB]]).2.1 (normVar rvA) (by decide)

/-! ### Placeholder substitution (`DraftService.generate_draft`) -/

/-- Does `pat` occur at the start of `s`? -/
def startsWithL : List Char → List Char → Bool
  | [], _ => true
  | _ :: _, [] => false
  | p :: ps, c :: cs => p == c && startsWithL ps cs

/-- Python `str.replace(pat, rep)`: scan left to right, replacing
non-overlapping occurrences of `pat` (for nonempty `pat`; `{{key}}` tokens
are always nonempty). -/
def replaceAll : List Char → List Char → List Char → List Char
  | [], _, _ => []
  | c :: cs, pat, rep =>
    if h : pat ≠ [] ∧ startsWithL pat (c :: cs) = true then
      rep ++ replaceAll ((c :: cs).drop pat.length) pat rep
    else
      c :: replaceAll cs pat rep
termination_by s pat rep => s.length
decreasing_by
  · simp only [List.length_drop, List.length_cons]
    have : 1 ≤ pat.length := by
      cases pat with
      | nil => exact absurd rfl h.1
      | cons p ps => simp
    omega
  · simp

/-- The `{{key}}` token for a key. -/
def tokL (k : List Char) : List Char := '{' :: '{' :: (k ++ ('}' :: '}' :: []))

/-- The substitution loop of `generate_draft`:
`for key, value in answers.items(): draft = draft.replace("{{"+key+"}}", value)`. -/
def renderAnswers (body : List Char) (answers : List (String × String)) : List Char :=
  answers.foldl (fun acc kv => replaceAll acc (tokL kv.1.data) kv.2.data) body

theorem replaceAll_nil (pat rep : List Char) : replaceAll [] pat rep = [] := by
  rw [replaceAll]

theorem replaceAll_cons_neg {pat : List Char} {c : Char} {cs : List Char}
    (h : startsWithL pat (c :: cs) = false) (rep : List Char) :
    replaceAll (c :: cs) pat rep = c :: replaceAll cs pat rep := by
  rw [replaceAll, dif_neg]
  intro hcon
  rw [hcon.2] at h
  simp at h

theorem replaceAll_cons_pos {pat : List Char} {c : Char} {cs : List Char}
    (hne : pat ≠ []) (h : startsWithL pat (c :: cs) = true) (rep : List Char) :
    replaceAll (c :: cs) pat rep = rep ++ replaceAll ((c :: cs).drop pat.length) pat rep := by
  rw [replaceAll, dif_pos ⟨hne, h⟩]

theorem startsWithL_append_self : ∀ (p t : List Char), startsWithL p (p ++ t) = true
  | [], _ => rfl
  | p :: ps, t => by
    rw [List.cons_append, startsWithL, startsWithL_append_self ps t]
    simp

theorem startsWithL_cons_false {p : Char} {ps : List Char} {c : Char} {cs : List Char}
    (h : p ≠ c) : startsWithL (p :: ps) (c :: cs) = false := by
  rw [startsWithL]
  simp [h]

/-- `l` contains no brace characters. -/
def braceFree (l : List Char) : Bool :=
  l.all (fun c => !(c == '{') && !(c == '}'))

theorem braceFree_cons {c : Char} {cs : List Char} (h : braceFree (c :: cs) = true) :
    c ≠ '{' ∧ c ≠ '}' ∧ braceFree cs = true := by
  refine ⟨?_, ?_, ?_⟩
  · intro he
    rw [he] at h
    simp [braceFree] at h
  · intro he
    rw [he] at h
    simp [braceFree] at h
  · simp only [braceFree, List.all_cons, Bool.and_eq_true] at h
    exact h.2

theorem startsWithL_cons_cons (p c : Char) (ps cs : List Char) :
    startsWithL (p :: ps) (c :: cs) = (p == c && startsWithL ps cs) := rfl

/-- Scanning a brace-free region never matches a pattern that starts with
an opening brace, so `replaceAll` passes it through unchanged. -/
theorem replaceAll_braceFree_append {u : List Char} (hu : braceFree u = true)
    (p t rep : List Char) :
    replaceAll (u ++ t) ('{' :: p) rep = u ++ replaceAll t ('{' :: p) rep := by
  induction u with
  | nil => simp
  | cons c cs ih =>
    obtain ⟨h1, _, h3⟩ := braceFree_cons hu
    have hne : '{' ≠ c := fun he => h1 he.symm
    rw [List.cons_append, replaceAll_cons_neg (startsWithL_cons_false hne) rep, ih h3,
      List.cons_append]

theorem startsWithL_keys_eq :
    ∀ (k k' t : List Char), braceFree k = true → braceFree k' = true →
      startsWithL (k ++ ('}' :: '}' :: [])) ((k' ++ ('}' :: '}' :: [])) ++ t) = true →
      k = k' := by
  intro k
  induction k with
  | nil =>
    intro k' t _ hk' h
    cases k' with
    | nil => rfl
    | cons c k'' =>
      exfalso
      obtain ⟨_, hc2, _⟩ := braceFree_cons hk'
      rw [List.nil_append, List.cons_append, List.cons_append,
        startsWithL_cons_cons] at h
      simp only [Bool.and_eq_true, beq_iff_eq] at h
      exact hc2 h.1.symm
  | cons a k2 ih =>
    intro k' t hk hk' h
    obtain ⟨_, ha2, hk2⟩ := braceFree_cons hk
    cases k' with
    | nil =>
      exfalso
      simp only [List.nil_append, List.cons_append] at h
      rw [startsWithL_cons_cons] at h
      simp only [Bool.and_eq_true, beq_iff_eq] at h
      exact ha2 h.1
    | cons b k2' =>
      obtain ⟨_, _, hk2'⟩ := braceFree_cons hk'
      simp only [List.cons_append] at h
      rw [startsWithL_cons_cons] at h
      simp only [Bool.and_eq_true, beq_iff_eq] at h
      rw [h.1, ih k2' t hk2 hk2' h.2]

theorem replaceAll_startsWith {pat : List Char} (hne : pat ≠ []) {s : List Char}
    (h : startsWithL pat s = true) (rep : List Char) :
    replaceAll s pat rep = rep ++ replaceAll (s.drop pat.length) pat rep := by
  cases s with
  | nil =>
    cases pat with
    | nil => exact absurd rfl hne
    | cons p ps => simp [startsWithL] at h
  | cons c cs => exact replaceAll_cons_pos hne h rep

/-- An occurrence of its own token at the head is replaced. -/
theorem replaceAll_tok_self (k t rep : List Char) :
    replaceAll (tokL k ++ t) (tokL k) rep = rep ++ replaceAll t (tokL k) rep := by
  have hne : tokL k ≠ [] := by simp [tokL]
  rw [replaceAll_startsWith hne (startsWithL_append_self _ t) rep, List.drop_left]

/-- A token for a different key is passed through unchanged. -/
theorem replaceAll_tok_other {k k' : List Char} (hk : braceFree k = true)
    (hk' : braceFree k' = true) (hne : k ≠ k') (t rep : List Char) :
    replaceAll (tokL k' ++ t) (tokL k) rep = tokL k' ++ replaceAll t (tokL k) rep := by
  -- keys differ, so the key regions cannot both match
  have hkeys : startsWithL (k ++ ('}' :: '}' :: [])) (k' ++ ('}' :: '}' :: t)) = false := by
    cases hsw : startsWithL (k ++ ('}' :: '}' :: [])) (k' ++ ('}' :: '}' :: t)) with
    | false => rfl
    | true =>
      exfalso
      apply hne
      have hform : k' ++ ('}' :: '}' :: t) = (k' ++ ('}' :: '}' :: [])) ++ t := by simp
      rw [hform] at hsw
      exact startsWithL_keys_eq k k' t hk hk' hsw
  -- normalize the goal to cons form
  show replaceAll ('{' :: ('{' :: (k' ++ ('}' :: '}' :: [])) ++ t))
      ('{' :: ('{' :: (k ++ ('}' :: '}' :: [])))) rep =
    ('{' :: ('{' :: (k' ++ ('}' :: '}' :: [])))) ++ replaceAll t (tokL k) rep
  have hassoc : ('{' :: (k' ++ ('}' :: '}' :: [])) ++ t) = '{' :: (k' ++ ('}' :: '}' :: t)) := by
    simp
  rw [hassoc]
  -- position 0: second characters agree but key regions differ
  have h0 : startsWithL ('{' :: ('{' :: (k ++ ('}' :: '}' :: []))))
      ('{' :: ('{' :: (k' ++ ('}' :: '}' :: t)))) = false := by
    rw [startsWithL_cons_cons, startsWithL_cons_cons]
    simp [hkeys]
  rw [replaceAll_cons_neg h0 rep]
  -- position 1: the pattern's second '{' cannot match the key or a '}'
  have h1 : startsWithL ('{' :: ('{' :: (k ++ ('}' :: '}' :: []))))
      ('{' :: (k' ++ ('}' :: '}' :: t))) = false := by
    rw [startsWithL_cons_cons]
    cases k' with
    | nil =>
      simp only [List.nil_append]
      rw [startsWithL_cons_cons]
      simp
    | cons c k'' =>
      obtain ⟨hc1, _, _⟩ := braceFree_cons hk'
      simp only [List.cons_append]
      rw [startsWithL_cons_cons]
      have hcc : ('{' == c) = false := by
        simp only [beq_eq_false_iff_ne, ne_eq]
        exact fun he => hc1 he.symm
      simp [hcc]
  rw [replaceAll_cons_neg h1 rep]
  -- skip over the brace-free key region
  rw [replaceAll_braceFree_append hk' _ _ rep]
  -- the two closing braces cannot start a match
  rw [replaceAll_cons_neg (startsWithL_cons_false (by decide)) rep]
  rw [replaceAll_cons_neg (startsWithL_cons_false (by decide)) rep]
  simp [tokL]

/-- A template body decomposed into literal runs and `{{key}}` tokens. -/
inductive Seg where
  | lit : List Char → Seg
  | hole : List Char → Seg
deriving DecidableEq, Repr

/-- The raw character stream of a decomposed body. -/
def flattenSegs : List Seg → List Char
  | [] => []
  | Seg.lit s :: rest => s ++ flattenSegs rest
  | Seg.hole k :: rest => tokL k ++ flattenSegs rest

/-- Well-formed segment: literal runs and keys contain no brace characters. -/
def segWF : Seg → Bool
  | Seg.lit s => braceFree s
  | Seg.hole k => braceFree k

def segsWF (segs : List Seg) : Bool := segs.all segWF

/-- Effect of one `str.replace("{{k}}", v)` pass on the decomposition:
every `k` token becomes the literal `v`; everything else is untouched. -/
def substTok (k v : List Char) (segs : List Seg) : List Seg :=
  segs.map (fun sg => match sg with
    | Seg.hole k' => if k' = k then Seg.lit v else Seg.hole k'
    | sg => sg)

/-- One `str.replace` pass acts on a well-formed decomposition exactly by
replacing that key's tokens. -/
theorem replaceAll_flattenSegs {segs : List Seg} (hw : segsWF segs = true)
    {k : List Char} (hk : braceFree k = true) (v : List Char) :
    replaceAll (flattenSegs segs) (tokL k) v = flattenSegs (substTok k v segs) := by
  induction segs with
  | nil => simp [flattenSegs, substTok, replaceAll_nil]
  | cons sg rest ih =>
    have hw1 : segWF sg = true ∧ segsWF rest = true := by
      simp only [segsWF, List.all_cons, Bool.and_eq_true] at hw
      exact hw
    cases sg with
    | lit s =>
      have hpat : tokL k = '{' :: ('{' :: (k ++ ('}' :: '}' :: []))) := rfl
      show replaceAll (s ++ flattenSegs rest) (tokL k) v =
        flattenSegs (Seg.lit s :: substTok k v rest)
      rw [hpat, replaceAll_braceFree_append hw1.1 _ _ v, ← hpat, ih hw1.2]
      rfl
    | hole k' =>
      have hflat : flattenSegs (Seg.hole k' :: rest) = tokL k' ++ flattenSegs rest := rfl
      by_cases hkk : k' = k
      · subst hkk
        have hsub : substTok k' v (Seg.hole k' :: rest) = Seg.lit v :: substTok k' v rest := by
          simp [substTok]
        rw [hflat, hsub, replaceAll_tok_self, ih hw1.2]
        rfl
      · have hsub : substTok k v (Seg.hole k' :: rest) = Seg.hole k' :: substTok k v rest := by
          simp [substTok, hkk]
        rw [hflat, hsub, replaceAll_tok_other hk hw1.1 (fun he => hkk he.symm) _ v, ih hw1.2]
        rfl

theorem substTok_WF {segs : List Seg} (hw : segsWF segs = true)
    {v : List Char} (hv : braceFree v = true) (k : List Char) :
    segsWF (substTok k v segs) = true := by
  induction segs with
  | nil => rfl
  | cons sg rest ih =>
    simp only [segsWF, List.all_cons, Bool.and_eq_true] at hw
    have hrest := ih hw.2
    cases sg with
    | lit s =>
      simp only [substTok, List.map_cons, segsWF, List.all_cons, Bool.and_eq_true]
      exact ⟨hw.1, hrest⟩
    | hole k' =>
      by_cases hkk : k' = k
      · simp only [substTok, List.map_cons, hkk, if_true, segsWF, List.all_cons,
          Bool.and_eq_true]
        exact ⟨hv, hrest⟩
      · simp only [substTok, List.map_cons, hkk, if_false, segsWF, List.all_cons,
          Bool.and_eq_true]
        exact ⟨hw.1, hrest⟩

/-- Answer-map well-formedness: keys and values contain no braces. -/
def ansWF (answers : List (String × String)) : Bool :=
  answers.all (fun kv => braceFree kv.1.data && braceFree kv.2.data)

/-- The full substitution loop on a well-formed decomposition is the fold of
per-key token replacement. -/
theorem renderAnswers_segs :
    ∀ (answers : List (String × String)) (segs : List Seg), segsWF segs = true →
      ansWF answers = true →
      renderAnswers (flattenSegs segs) answers =
        flattenSegs (answers.foldl (fun sg kv => substTok kv.1.data kv.2.data sg) segs) := by
  intro answers
  induction answers with
  | nil => intro segs _ _; rfl
  | cons kv rest ih =>
    intro segs hs ha
    simp only [ansWF, List.all_cons, Bool.and_eq_true] at ha
    have h1 : renderAnswers (flattenSegs segs) (kv :: rest) =
        renderAnswers (replaceAll (flattenSegs segs) (tokL kv.1.data) kv.2.data) rest := rfl
    rw [h1, replaceAll_flattenSegs hs ha.1.1 kv.2.data,
      ih _ (substTok_WF hs ha.1.2 kv.1.data) (by simp [ansWF, ha.2])]
    rfl

/-- Lookup of a key (given as a character list) in the answer map, first
occurrence wins. -/
def lookupD (k : List Char) : List (String × String) → Option String
  | [] => none
  | kv :: rest => if kv.1.data = k then some kv.2 else lookupD k rest

/-- The end result of the substitution loop on one segment: a present key's
token becomes its answer value, an absent key's token stays intact. -/
def segApplyD (answers : List (String × String)) : Seg → Seg
  | Seg.lit s => Seg.lit s
  | Seg.hole k =>
    match lookupD k answers with
    | some v => Seg.lit v.data
    | none => Seg.hole k

theorem foldl_substTok_eq :
    ∀ (answers : List (String × String)) (segs : List Seg),
      answers.foldl (fun sg kv => substTok kv.1.data kv.2.data sg) segs =
        segs.map (segApplyD answers) := by
  intro answers
  induction answers with
  | nil =>
    intro segs
    rw [List.foldl_nil]
    symm
    apply map_fix
    intro sg _
    cases sg with
    | lit s => rfl
    | hole k => rfl
  | cons kv rest ih =>
    intro segs
    rw [List.foldl_cons, ih, substTok, List.map_map]
    apply List.map_congr_left
    intro sg _
    cases sg with
    | lit s => rfl
    | hole k =>
      by_cases hkk : k = kv.1.data
      · simp only [Function.comp_apply, hkk, if_true]
        show Seg.lit kv.2.data = segApplyD (kv :: rest) (Seg.hole kv.1.data)
        simp [segApplyD, lookupD]
      · simp only [Function.comp_apply, hkk, if_false]
        show segApplyD rest (Seg.hole k) = segApplyD (kv :: rest) (Seg.hole k)
        have hne : ¬ (kv.1.data = k) := fun he => hkk he.symm
        simp [segApplyD, lookupD, hne]

/-- C8. For every template body (decomposed into brace-free literal runs and
`{{key}}` tokens) and every brace-free answer map, `generate_draft`'s
substitution loop replaces every occurrence of a `{{key}}` token whose key is
present in the answer map by that key's value, and leaves the literal
`{{key}}` token intact (not blanked, no error) for every key absent from the
map: the rendered text is the flattening in which each token segment is
resolved by `segApplyD` (present key ↦ value, absent key ↦ the intact token). -/
theorem C8_render_substitution (segs : List Seg) (answers : List (String × String))
    (hw : segsWF segs = true) (ha : ansWF answers = true) :
    renderAnswers (flattenSegs segs) answers =
      flattenSegs (segs.map (segApplyD answers)) := by
  rw [renderAnswers_segs answers segs hw ha, foldl_substTok_eq]

/-- The decomposition of the spec's example body
"Hello {{name}}, amount {{amt}}". -/
def segs8 : List Seg :=
  Seg.lit "Hello ".data :: Seg.hole "name".data :: Seg.lit ", amount ".data ::
    Seg.hole "amt".data :: []

/-- C8 — witness: the two examples from the claim, obtained by applying the
theorem at the concrete body and evaluating both flattenings. -/
theorem C8_witness :
    renderAnswers ("Hello {{name}}, amount {{amt}}".data)
        (("name", "Jane") :: ("amt", "100") :: []) = "Hello Jane, amount 100".data ∧
    renderAnswers ("Hello {{name}}, amount {{amt}}".data)
        (("name", "Jane") :: []) = "Hello Jane, amount {{amt}}".data := by
  constructor
  · have h := C8_render_substitution segs8 (("name", "Jane") :: ("amt", "100") :: [])
      (by decide) (by decide)
    have h1 : flattenSegs segs8 = "Hello {{name}}, amount {{amt}}".data := by decide
    have h2 : flattenSegs (segs8.map (segApplyD (("name", "Jane") :: ("amt", "100") :: []))) =
        "Hello Jane, amount 100".data := by decide
    rw [h1, h2] at h
    exact h
  · have h := C8_render_substitution segs8 (("name", "Jane") :: [])
      (by decide) (by decide)
    have h1 : flattenSegs segs8 = "Hello {{name}}, amount {{amt}}".data := by decide
    have h2 : flattenSegs (segs8.map (segApplyD (("name", "Jane") :: []))) =
        "Hello Jane, amount {{amt}}".data := by decide
    rw [h1, h2] at h
    exact h

/-! ### Draft-instance state machine (`DraftService`, `models/template.py`) -/

/-- A draft instance record (`DraftInstance`): the answer map is an
association list mirroring the JSON-serialized dict (insertion order,
no duplicate keys produced by the operations below). -/
structure DInstance where
  instance_id : String
  template_id : String
  query : String
  answers : List (String × String)
  draft_md : Option (List Char)
  status : String
deriving DecidableEq, Repr

/-- `DraftService.create_draft_instance`: a fresh instance with the prefill
oracle's output as the initial answer map and status "pending". -/
def create_draft_instance (iid tid query : String)
    (prefilled : List (String × String)) : DInstance :=
  { instance_id := iid, template_id := tid, query := query,
    answers := prefilled, draft_md := none, status := "pending" }

/-- First-match lookup in an association list (Python dict access). -/
def lookupA (k : String) : List (String × String) → Option String
  | [] => none
  | kv :: rest => if kv.1 = k then some kv.2 else lookupA k rest

/-- Python `dict.update(new)`: existing keys keep their position but take
the new value when present in `new`; keys of `new` not present in the old
dict are appended in `new`'s order. -/
def dictUpdate (old nw : List (String × String)) : List (String × String) :=
  (old.map (fun kv => (kv.1, (lookupA kv.1 nw).getD kv.2))) ++
    nw.filter (fun kv => !(old.any (fun ov => ov.1 == kv.1)))

/-- `DraftService.update_answers` on a found instance:
`instance.update_answers(answers); instance.status = "in_progress"`. -/
def update_answers (inst : DInstance) (nw : List (String × String)) : DInstance :=
  { inst with answers := dictUpdate inst.answers nw, status := "in_progress" }

/-- `DraftService.generate_draft` on a found instance: render the template
body with the current answers, store it and mark the instance completed
(DOCX rendering is an external collaborator and is elided). -/
def generate_draft (inst : DInstance) (templateBody : List Char) : DInstance :=
  { inst with
    draft_md := some (renderAnswers templateBody inst.answers)
    status := "completed" }

theorem lookupA_map_upd (k : String) (nw : List (String × String)) :
    ∀ old : List (String × String),
      lookupA k (old.map (fun kv => (kv.1, (lookupA kv.1 nw).getD kv.2))) =
        (lookupA k old).map (fun v => (lookupA k nw).getD v) := by
  intro old
  induction old with
  | nil => rfl
  | cons kv rest ih =>
    by_cases hk : kv.1 = k
    · subst hk
      simp [lookupA, List.map_cons]
    · simp only [List.map_cons, lookupA, hk, if_false]
      exact ih

theorem lookupA_append (k : String) (a b : List (String × String)) :
    lookupA k (a ++ b) =
      match lookupA k a with
      | some v => some v
      | none => lookupA k b := by
  induction a with
  | nil => simp [lookupA]
  | cons kv rest ih =>
    by_cases hk : kv.1 = k
    · simp [lookupA, hk]
    · simp only [List.cons_append, lookupA, hk, if_false]
      exact ih

theorem lookupA_filter_none (k : String) (p : String × String → Bool)
    (hp : ∀ kv : String × String, kv.1 = k → p kv = false) :
    ∀ nw : List (String × String), lookupA k (nw.filter p) = none := by
  intro nw
  induction nw with
  | nil => rfl
  | cons kv rest ih =>
    by_cases hk : kv.1 = k
    · rw [List.filter_cons, hp kv hk]
      simpa using ih
    · rw [List.filter_cons]
      cases hpkv : p kv with
      | false => simpa using ih
      | true =>
        simp only [if_true]
        rw [lookupA, if_neg hk]
        exact ih

theorem lookupA_filter_same (k : String) (p : String × String → Bool)
    (hp : ∀ kv : String × String, kv.1 = k → p kv = true) :
    ∀ nw : List (String × String), lookupA k (nw.filter p) = lookupA k nw := by
  intro nw
  induction nw with
  | nil => rfl
  | cons kv rest ih =>
    by_cases hk : kv.1 = k
    · rw [List.filter_cons, hp kv hk]
      simp only [if_true]
      rw [lookupA, if_pos hk, lookupA, if_pos hk]
    · rw [List.filter_cons]
      cases hpkv : p kv with
      | false =>
        simp only [Bool.false_eq_true, if_false]
        rw [lookupA, if_neg hk]
        exact ih
      | true =>
        simp only [if_true]
        rw [lookupA, if_neg hk, lookupA, if_neg hk]
        exact ih

theorem any_key_iff_lookupA (k : String) :
    ∀ old : List (String × String),
      old.any (fun ov => ov.1 == k) = (lookupA k old).isSome := by
  intro old
  induction old with
  | nil => rfl
  | cons kv rest ih =>
    by_cases hk : kv.1 = k
    · simp [List.any_cons, hk, lookupA]
    · simp only [List.any_cons, lookupA, hk, if_false]
      have : (kv.1 == k) = false := by simp [hk]
      rw [this]
      simpa using ih

/-- The shallow-merge law of `dict.update`: a key present in the partial map
takes the partial's value, a key absent from the partial keeps its old value. -/
theorem lookupA_dictUpdate (old nw : List (String × String)) (k : String) :
    lookupA k (dictUpdate old nw) =
      match lookupA k nw with
      | some v => some v
      | none => lookupA k old := by
  rw [dictUpdate, lookupA_append, lookupA_map_upd]
  cases hold : lookupA k old with
  | some v =>
    cases hnw : lookupA k nw with
    | some w => simp [hnw]
    | none => simp [hnw]
  | none =>
    simp only [Option.map_none']
    have hany : old.any (fun ov => ov.1 == k) = false := by
      rw [any_key_iff_lookupA, hold]
      rfl
    have hp : ∀ kv : String × String, kv.1 = k →
        (!(old.any (fun ov => ov.1 == kv.1))) = true := by
      intro kv hkv
      rw [hkv, hany]
      rfl
    cases hnw : lookupA k nw with
    | some w =>
      have := lookupA_filter_same k (fun kv => !(old.any (fun ov => ov.1 == kv.1))) hp nw
      rw [this, hnw]
    | none =>
      have := lookupA_filter_same k (fun kv => !(old.any (fun ov => ov.1 == kv.1))) hp nw
      rw [this, hnw]

/-- C7. For every draft instance: `create_draft_instance` yields status
"pending"; every `update_answers` call yields status "in_progress"
(unconditionally — the instance argument ranges over all statuses, including
"completed") and sets the answer map to the shallow merge of the previous map
with the partial map (keys in the partial overwrite, keys absent from the
partial are preserved); and `generate_draft` yields status "completed". -/
theorem C7_state_machine (iid tid query : String) (prefilled : List (String × String))
    (inst : DInstance) (nw : List (String × String)) (body : List Char) :
    (create_draft_instance iid tid query prefilled).status = "pending" ∧
    (update_answers inst nw).status = "in_progress" ∧
    (∀ k, lookupA k (update_answers inst nw).answers =
      match lookupA k nw with
      | some v => some v
      | none => lookupA k inst.answers) ∧
    (generate_draft inst body).status = "completed" := by
  refine ⟨rfl, rfl, ?_, rfl⟩
  intro k
  exact lookupA_dictUpdate inst.answers nw k

/-! ### Matching pipeline (`DraftService.match_template`) -/

/-- A stored template as seen by matching: metadata plus the optional
embedding vector. -/
structure Tmpl where
  title : String
  doc_type : Option String
  description : String
  embedding : Option (List ℚ)
deriving DecidableEq, Repr

/-- A ranked candidate: the template together with its similarity score. -/
structure Cand where
  tmpl : Tmpl
  sim : ℚ
deriving DecidableEq, Repr

/-- A web search hit from the search collaborator. -/
structure WebResult where
  url : String
  title : String
  snippet : String
deriving DecidableEq, Repr

/-- The judgment oracle's parsed reply (`gemini_service.match_templates`
output): a JSON object that may omit the index or the confidence. -/
structure LlmMatch where
  best_match_index : Option Int
  confidence : Option ℚ
  reasoning : String
deriving DecidableEq, Repr

/-- The result record built by `match_template`. -/
structure MatchResult where
  best_match : Option Tmpl
  confidence : ℚ
  reasoning : String
  alternatives : List Cand
  web_results : List WebResult
  message : String
deriving DecidableEq, Repr

inductive MatchErr where
  | indexError
deriving DecidableEq, Repr

/-- Sort key of `similarities.sort(key=lambda x: x["similarity"],
reverse=True)`: `a` may come before `b` when `b`'s similarity is no larger. -/
def candBefore (a b : Cand) : Prop := b.sim ≤ a.sim

instance : DecidableRel candBefore :=
  fun a b => inferInstanceAs (Decidable (b.sim ≤ a.sim))

instance : IsTotal Cand candBefore := ⟨fun a b => le_total b.sim a.sim⟩

instance : IsTrans Cand candBefore := ⟨fun _ _ _ h1 h2 => le_trans h2 h1⟩

/-- The unsorted similarity list: templates lacking a stored embedding are
skipped (`if template_embedding:`), others are paired with the cosine score
(the cosine computation itself is sklearn, an external collaborator, modelled
as the function argument `cos`). -/
def rankAll (cos : List ℚ → List ℚ → ℚ) (q : List ℚ) (ts : List Tmpl) : List Cand :=
  ts.filterMap (fun t => t.embedding.map (fun e => { tmpl := t, sim := cos q e }))

/-- The stable descending sort of the similarity list (Python's `list.sort`
is stable; with `reverse=True` ties keep input order). -/
def rankSorted (cos : List ℚ → List ℚ → ℚ) (q : List ℚ) (ts : List Tmpl) : List Cand :=
  (rankAll cos q ts).insertionSort candBefore

/-- `top_candidates = similarities[:5]`. -/
def topCands (cos : List ℚ → List ℚ → ℚ) (q : List ℚ) (ts : List Tmpl) : List Cand :=
  (rankSorted cos q ts).take 5

/-- Python list indexing `l[i]`: negative indices count from the end; an
out-of-range index raises IndexError (modelled as `none`). -/
def pyGet {α : Type} (l : List α) (i : Int) : Option α :=
  if 0 ≤ i then l.get? i.toNat
  else if 0 ≤ (l.length : Int) + i then l.get? ((l.length : Int) + i).toNat
  else none

/-- The `result.update(...)` and escalation block of `match_template`, once
the chosen candidate (`best`, None when there are no ranked candidates) is
known: compute the defaulted confidence (`llm_result.get("confidence") or
0.5` — note Python `or` also replaces a supplied `0`), the similarity-ranked
alternatives `top_candidates[1:4]`, and the confidence-gated web search.
The Bool records whether the search collaborator was invoked. -/
def match_build (top : List Cand) (best : Option Cand) (llm : LlmMatch)
    (includeWeb : Bool) (exaKey : String) (thr : ℚ)
    (webSearch : Option String → List WebResult) : MatchResult × Bool :=
  let confidence : ℚ :=
    match llm.confidence with
    | none => 1 / 2
    | some c => if c = 0 then 1 / 2 else c
  let doSearch := includeWeb && decide (confidence < thr) && !(exaKey == "")
  let web := if doSearch then webSearch (best.bind (fun c => c.tmpl.doc_type)) else []
  let msg := if doSearch && !web.isEmpty then
      "Low confidence match. Also showing web search results."
    else ""
  ({ best_match := best.map (fun c => c.tmpl), confidence := confidence,
     reasoning := llm.reasoning, alternatives := (top.drop 1).take 3,
     web_results := web, message := msg }, doSearch)

/-- `DraftService.match_template`, non-ranking plumbing elided: the query
embedding `q` stands for `generate_embedding(query)`, `llm` for the parsed
`match_templates` reply, and `webSearch` for
`exa_service.search_legal_templates` (argument: the doc-type hint). The
returned Bool records whether the web-search collaborator was invoked;
Python's uncaught IndexError on an out-of-range oracle index is the
`Except.error` case. -/
def match_template (cos : List ℚ → List ℚ → ℚ) (q : List ℚ) (ts : List Tmpl)
    (llm : LlmMatch) (includeWeb : Bool) (exaKey : String) (thr : ℚ)
    (webSearch : Option String → List WebResult) :
    Except MatchErr (MatchResult × Bool) :=
  if ts.isEmpty then
    let doSearch := includeWeb && !(exaKey == "")
    let web := if doSearch then webSearch none else []
    let msg := if doSearch && !web.isEmpty then
        "No local templates found. Showing web search results."
      else "No templates available in library"
    Except.ok ({ best_match := none, confidence := 0, reasoning := "",
                 alternatives := [], web_results := web, message := msg }, doSearch)
  else
    if (topCands cos q ts).isEmpty then
      Except.ok (match_build (topCands cos q ts) none llm includeWeb exaKey thr webSearch)
    else
      match pyGet (topCands cos q ts) (llm.best_match_index.getD 0) with
      | some c =>
        Except.ok (match_build (topCands cos q ts) (some c) llm includeWeb exaKey thr
          webSearch)
      | none => Except.error MatchErr.indexError

theorem filter_orderedInsert (s : ℚ) (a : Cand) :
    ∀ l : List Cand,
      (List.orderedInsert candBefore a l).filter (fun c => c.sim == s) =
        if a.sim = s then a :: l.filter (fun c => c.sim == s)
        else l.filter (fun c => c.sim == s) := by
  intro l
  induction l with
  | nil =>
    by_cases h : a.sim = s <;> simp [List.orderedInsert, h]
  | cons b bs ih =>
    by_cases hr : candBefore a b
    · rw [List.orderedInsert_of_le _ _ hr]
      by_cases ha : a.sim = s <;> simp [List.filter_cons, ha]
    · have hlt : a.sim < b.sim := by
        simp only [candBefore, not_le] at hr
        exact hr
      simp only [List.orderedInsert, if_neg hr]
      rw [List.filter_cons, List.filter_cons, ih]
      by_cases ha : a.sim = s
      · have hb : (b.sim == s) = false := by
          simp only [beq_eq_false_iff_ne, ne_eq]
          intro he
          rw [ha] at hlt
          rw [he] at hlt
          exact lt_irrefl s hlt
        simp [ha, hb]
      · simp [ha]

/-- Stability of the sort: for every similarity value, the candidates with
that value appear in the sorted list exactly as they appear in the input
(ties keep input order). -/
theorem filter_insertionSort_stable (s : ℚ) :
    ∀ l : List Cand,
      (l.insertionSort candBefore).filter (fun c => c.sim == s) =
        l.filter (fun c => c.sim == s) := by
  intro l
  induction l with
  | nil => rfl
  | cons x xs ih =>
    rw [List.insertionSort, filter_orderedInsert, List.filter_cons]
    by_cases hx : x.sim = s
    · simp [hx, ih]
    · have hxb : (x.sim == s) = false := by simp [hx]
      simp [hx, hxb, ih]

/-- C3. For every set of stored templates and every query embedding vector,
the candidate list used by matching has at most 5 entries, is sorted by
descending similarity, contains only templates that have a stored embedding
(scored by the cosine collaborator on that embedding), and ties are kept in
stable input order (the sorted list filtered at any similarity value equals
the unsorted input filtered at that value). -/
theorem C3_ranking_topk (cos : List ℚ → List ℚ → ℚ) (q : List ℚ) (ts : List Tmpl) :
    (topCands cos q ts).length ≤ 5 ∧
    List.Sorted candBefore (topCands cos q ts) ∧
    (∀ c ∈ topCands cos q ts,
      c.tmpl ∈ ts ∧ ∃ e, c.tmpl.embedding = some e ∧ c.sim = cos q e) ∧
    (∀ s : ℚ, (rankSorted cos q ts).filter (fun c => c.sim == s) =
      (rankAll cos q ts).filter (fun c => c.sim == s)) := by
  refine ⟨?_, ?_, ?_, ?_⟩
  · rw [topCands]
    exact List.length_take_le 5 _
  · rw [topCands]
    exact (List.sorted_insertionSort candBefore _).sublist (List.take_sublist 5 _)
  · intro c hc
    have h1 : c ∈ rankSorted cos q ts := (List.take_sublist 5 _).subset hc
    have h2 : c ∈ rankAll cos q ts := by
      rw [rankSorted] at h1
      exact (List.mem_insertionSort candBefore).mp h1
    rw [rankAll] at h2
    obtain ⟨t, ht, hmap⟩ := List.mem_filterMap.mp h2
    obtain ⟨e, he, hce⟩ := Option.map_eq_some'.mp hmap
    refine ⟨?_, e, ?_, ?_⟩
    · rw [← hce]
      exact ht
    · rw [← hce]
      exact he
    · rw [← hce]
  · intro s
    exact filter_insertionSort_stable s (rankAll cos q ts)

theorem match_template_ok_cases (cos : List ℚ → List ℚ → ℚ) (q : List ℚ)
    (ts : List Tmpl) (llm : LlmMatch) (includeWeb : Bool) (exaKey : String) (thr : ℚ)
    (webSearch : Option String → List WebResult) (hts : ts ≠ [])
    {p : MatchResult × Bool}
    (hok : match_template cos q ts llm includeWeb exaKey thr webSearch = Except.ok p) :
    ∃ best : Option Cand,
      p = match_build (topCands cos q ts) best llm includeWeb exaKey thr webSearch ∧
      (((topCands cos q ts).isEmpty = true ∧ best = none) ∨
        ∃ c, best = some c ∧
          pyGet (topCands cos q ts) (llm.best_match_index.getD 0) = some c) := by
  have he : ts.isEmpty = false := by
    cases ts with
    | nil => exact absurd rfl hts
    | cons a l => rfl
  unfold match_template at hok
  rw [he] at hok
  simp only [Bool.false_eq_true, if_false] at hok
  by_cases htop : (topCands cos q ts).isEmpty = true
  · rw [if_pos htop] at hok
    simp only [Except.ok.injEq] at hok
    exact ⟨none, hok.symm, Or.inl ⟨htop, rfl⟩⟩
  · rw [if_neg htop] at hok
    cases hp : pyGet (topCands cos q ts) (llm.best_match_index.getD 0) with
    | none =>
      rw [hp] at hok
      simp at hok
    | some c =>
      rw [hp] at hok
      simp only [Except.ok.injEq] at hok
      refine ⟨some c, hok.symm, Or.inr ⟨c, ?_, ?_⟩⟩
      · rfl
      · rfl

theorem match_build_fields (top : List Cand) (best : Option Cand) (llm : LlmMatch)
    (includeWeb : Bool) (exaKey : String) (thr : ℚ)
    (webSearch : Option String → List WebResult) :
    (match_build top best llm includeWeb exaKey thr webSearch).1.best_match =
        best.map (fun c => c.tmpl) ∧
    (match_build top best llm includeWeb exaKey thr webSearch).1.confidence =
        (match llm.confidence with
         | none => 1 / 2
         | some c => if c = 0 then 1 / 2 else c) ∧
    (match_build top best llm includeWeb exaKey thr webSearch).1.alternatives =
        (top.drop 1).take 3 ∧
    (match_build top best llm includeWeb exaKey thr webSearch).2 =
        (includeWeb &&
          decide ((match_build top best llm includeWeb exaKey thr webSearch).1.confidence
            < thr) && !(exaKey == "")) ∧
    (exaKey = "" →
      (match_build top best llm includeWeb exaKey thr webSearch).1.web_results = []) := by
  refine ⟨rfl, rfl, rfl, rfl, ?_⟩
  intro h
  subst h
  simp [match_build]

/-- C4. For every match invocation on a non-empty template library, the web
search collaborator is invoked if and only if the resulting confidence is
strictly below the threshold, web-search escalation was requested, and the
search key is configured (nonempty); a missing search configuration degrades
silently — the result is still returned, without web results. -/
theorem C4_confidence_gating (cos : List ℚ → List ℚ → ℚ) (q : List ℚ)
    (ts : List Tmpl) (llm : LlmMatch) (includeWeb : Bool) (exaKey : String) (thr : ℚ)
    (webSearch : Option String → List WebResult) (hts : ts ≠ [])
    (r : MatchResult) (inv : Bool)
    (hok : match_template cos q ts llm includeWeb exaKey thr webSearch =
      Except.ok (r, inv)) :
    (inv = true ↔ (includeWeb = true ∧ r.confidence < thr ∧ exaKey ≠ "")) ∧
    (exaKey = "" → r.web_results = []) := by
  obtain ⟨best, hp, _⟩ :=
    match_template_ok_cases cos q ts llm includeWeb exaKey thr webSearch hts hok
  have h1 : r =
      (match_build (topCands cos q ts) best llm includeWeb exaKey thr webSearch).1 :=
    congrArg Prod.fst hp
  have h2 : inv =
      (match_build (topCands cos q ts) best llm includeWeb exaKey thr webSearch).2 :=
    congrArg Prod.snd hp
  obtain ⟨_, _, _, hinv, hweb⟩ :=
    match_build_fields (topCands cos q ts) best llm includeWeb exaKey thr webSearch
  constructor
  · rw [h2, hinv, ← h1]
    constructor
    · intro h
      simp only [Bool.and_eq_true, decide_eq_true_eq] at h
      refine ⟨h.1.1, h.1.2, ?_⟩
      intro he
      rw [he] at h
      simp at h
    · intro h
      simp only [Bool.and_eq_true, decide_eq_true_eq]
      refine ⟨⟨h.1, h.2.1⟩, ?_⟩
      simp [h.2.2]
  · intro h
    rw [h1]
    exact hweb h

/-- C5 — amended. For every judgment-oracle reply on a non-empty library,
the arbiter chooses candidate 0 when the oracle's index is missing and the
candidate at the oracle's index when one is supplied (in range); the
returned confidence equals the oracle's confidence when the oracle supplies
a nonzero one, and is 0.5 both when it is missing **and when the oracle
supplies exactly 0** (Python `llm_result.get("confidence") or 0.5` treats a
supplied 0.0 as falsy) — not, as the claim stated, for every supplied value
in [0,1]. -/
theorem C5_arbiter_defaults (cos : List ℚ → List ℚ → ℚ) (q : List ℚ)
    (ts : List Tmpl) (llm : LlmMatch) (includeWeb : Bool) (exaKey : String) (thr : ℚ)
    (webSearch : Option String → List WebResult) (hts : ts ≠ [])
    (r : MatchResult) (inv : Bool)
    (hok : match_template cos q ts llm includeWeb exaKey thr webSearch =
      Except.ok (r, inv)) :
    (llm.best_match_index = none →
      ∀ c : Cand, (topCands cos q ts).get? 0 = some c → r.best_match = some c.tmpl) ∧
    (∀ i : Int, llm.best_match_index = some i → 0 ≤ i →
      ∀ c : Cand, (topCands cos q ts).get? i.toNat = some c →
        r.best_match = some c.tmpl) ∧
    (∀ cq : ℚ, llm.confidence = some cq → cq ≠ 0 → r.confidence = cq) ∧
    (llm.confidence = none → r.confidence = 1 / 2) ∧
    (llm.confidence = some 0 → r.confidence = 1 / 2) := by
  obtain ⟨best, hp, hcase⟩ :=
    match_template_ok_cases cos q ts llm includeWeb exaKey thr webSearch hts hok
  have h1 : r =
      (match_build (topCands cos q ts) best llm includeWeb exaKey thr webSearch).1 :=
    congrArg Prod.fst hp
  obtain ⟨hbest, hconf, _, _, _⟩ :=
    match_build_fields (topCands cos q ts) best llm includeWeb exaKey thr webSearch
  have hpick : ∀ c : Cand,
      pyGet (topCands cos q ts) (llm.best_match_index.getD 0) = some c →
      r.best_match = some c.tmpl := by
    intro c hpy
    rcases hcase with ⟨hemp, _⟩ | ⟨c0, hb0, hpy0⟩
    · exfalso
      have : topCands cos q ts = [] := by
        cases htc : topCands cos q ts with
        | nil => rfl
        | cons x xs => rw [htc] at hemp; simp at hemp
      rw [this] at hpy
      simp [pyGet] at hpy
    · rw [hpy0] at hpy
      have hc : c0 = c := by
        simpa using hpy
      rw [h1, hbest, hb0, hc]
      rfl
  refine ⟨?_, ?_, ?_, ?_, ?_⟩
  · intro hidx c hc
    apply hpick
    rw [hidx]
    show pyGet (topCands cos q ts) 0 = some c
    rw [pyGet, if_pos le_rfl]
    exact hc
  · intro i hidx hi c hc
    apply hpick
    rw [hidx]
    show pyGet (topCands cos q ts) i = some c
    rw [pyGet, if_pos hi]
    exact hc
  · intro cq hcq hne
    rw [h1, hconf, hcq]
    simp [hne]
  · intro hcq
    rw [h1, hconf, hcq]
  · intro hcq
    rw [h1, hconf, hcq]
    simp

/-- C6 — amended. For every match result on a non-empty library, the
alternatives list consists of the candidates ranked 2nd through 4th by
similarity (`top_candidates[1:4]`); it is **not** adjusted for the oracle's
choice, so whenever the oracle selects an index in {1, 2, 3} the chosen
best_match itself appears in the alternatives list — contrary to the claim
that it never does. -/
theorem C6_alternatives_runners_up (cos : List ℚ → List ℚ → ℚ) (q : List ℚ)
    (ts : List Tmpl) (llm : LlmMatch) (includeWeb : Bool) (exaKey : String) (thr : ℚ)
    (webSearch : Option String → List WebResult) (hts : ts ≠ [])
    (r : MatchResult) (inv : Bool)
    (hok : match_template cos q ts llm includeWeb exaKey thr webSearch =
      Except.ok (r, inv)) :
    r.alternatives = ((topCands cos q ts).drop 1).take 3 ∧
    (∀ i : Int, llm.best_match_index = some i → 1 ≤ i → i ≤ 3 →
      ∀ c : Cand, (topCands cos q ts).get? i.toNat = some c →
        r.best_match = some c.tmpl ∧ c ∈ r.alternatives) := by
  obtain ⟨best, hp, hcase⟩ :=
    match_template_ok_cases cos q ts llm includeWeb exaKey thr webSearch hts hok
  have h1 : r =
      (match_build (topCands cos q ts) best llm includeWeb exaKey thr webSearch).1 :=
    congrArg Prod.fst hp
  obtain ⟨hbest, _, halts, _, _⟩ :=
    match_build_fields (topCands cos q ts) best llm includeWeb exaKey thr webSearch
  have haltr : r.alternatives = ((topCands cos q ts).drop 1).take 3 := by
    rw [h1, halts]
  refine ⟨haltr, ?_⟩
  intro i hidx h1i h3i c hc
  constructor
  · rcases hcase with ⟨hemp, _⟩ | ⟨c0, hb0, hpy0⟩
    · exfalso
      have hnil : topCands cos q ts = [] := by
        cases htc : topCands cos q ts with
        | nil => rfl
        | cons x xs => rw [htc] at hemp; simp at hemp
      rw [hnil] at hc
      simp at hc
    · rw [hidx] at hpy0
      have hpy : pyGet (topCands cos q ts) i = some c0 := hpy0
      rw [pyGet, if_pos (by omega)] at hpy
      rw [hc] at hpy
      have hc0 : c0 = c := by simpa using hpy.symm
      rw [h1, hbest, hb0, hc0]
      rfl
  · rw [haltr]
    have hn1 : 1 ≤ i.toNat := by omega
    have hn3 : i.toNat ≤ 3 := by omega
    have hget : (((topCands cos q ts).drop 1).take 3).get? (i.toNat - 1) = some c := by
      rw [List.get?_eq_getElem?, List.getElem?_take_of_lt (by omega),
        List.getElem?_drop]
      have harg : 1 + (i.toNat - 1) = i.toNat := by omega
      rw [harg, ← List.get?_eq_getElem?]
      exact hc
    exact List.get?_mem hget

/-- C10. For every judgment-oracle reply whose best_match_index is at least
the number of ranked candidates, with at least one ranked candidate present,
`match_template` raises an uncaught IndexError (the error outcome) instead
of returning a result record: the oracle's index is never validated against
the candidate count before indexing `top_candidates`. -/
theorem C10_oracle_index_unvalidated (cos : List ℚ → List ℚ → ℚ) (q : List ℚ)
    (ts : List Tmpl) (llm : LlmMatch) (includeWeb : Bool) (exaKey : String) (thr : ℚ)
    (webSearch : Option String → List WebResult) (hts : ts ≠ []) (i : Int)
    (hidx : llm.best_match_index = some i)
    (htop : (topCands cos q ts).isEmpty = false)
    (hlen : ((topCands cos q ts).length : Int) ≤ i) :
    match_template cos q ts llm includeWeb exaKey thr webSearch =
      Except.error MatchErr.indexError := by
  have he : ts.isEmpty = false := by
    cases ts with
    | nil => exact absurd rfl hts
    | cons a l => rfl
  unfold match_template
  rw [he]
  simp only [Bool.false_eq_true, if_false]
  rw [if_neg (by rw [htop]; simp)]
  have hi0 : (0 : Int) ≤ i := by
    have : (0 : Int) ≤ ((topCands cos q ts).length : Int) := Int.natCast_nonneg _
    omega
  have hpy : pyGet (topCands cos q ts) (llm.best_match_index.getD 0) = none := by
    rw [hidx]
    show pyGet (topCands cos q ts) i = none
    rw [pyGet, if_pos hi0]
    rw [List.get?_eq_none]
    omega
  rw [hpy]

/-! ### Concrete fixtures for the matching-pipeline witnesses -/

/-- A concrete stand-in for the cosine collaborator: score an embedding by
its first component (kept arithmetic-free so the kernel can evaluate it). -/
def simHead : List ℚ → List ℚ → ℚ := fun _ e => e.headD 0

def tmplA : Tmpl :=
  { title := "Mutual NDA", doc_type := some "nda", description := "a",
    embedding := some (1 :: []) }

def tmplB : Tmpl :=
  { title := "Lease Agreement", doc_type := some "lease", description := "b",
    embedding := some (0 :: []) }

def tmplC : Tmpl :=
  { title := "Unembedded", doc_type := none, description := "c", embedding := none }

def qv : List ℚ := 1 :: []

/-- A search collaborator returning no hits. -/
def noSearch : Option String → List WebResult := fun _ => []

/-- C3 — witness: the top candidate for the concrete library is the NDA
template, which has a stored embedding scored by the collaborator. -/
theorem C3_witness :
    ({ tmpl := tmplA, sim := 1 } : Cand).tmpl ∈ (tmplA :: tmplB :: tmplC :: []) ∧
    ∃ e, ({ tmpl := tmplA, sim := 1 } : Cand).tmpl.embedding = some e ∧
      ({ tmpl := tmplA, sim := 1 } : Cand).sim = simHead qv e :=
  (C3_ranking_topk simHead qv (tmplA :: tmplB :: tmplC :: [])).2.2.1
    { tmpl := tmplA, sim := 1 } (by decide)

/-- The result record of the concrete high-confidence match used by the C4
and C5 witnesses. -/
def c4r : MatchResult :=
  { best_match := some tmplA, confidence := 2, reasoning := "ok",
    alternatives := { tmpl := tmplB, sim := 0 } :: [], web_results := [],
    message := "" }

/-- C4 — witness: at confidence 2 ≥ threshold 1 with no search key
configured, the search collaborator is not invoked and the result carries no
web results. -/
theorem C4_witness :
    ((false = true) ↔ (true = true ∧ c4r.confidence < 1 ∧ ("" : String) ≠ "")) ∧
    (("" : String) = "" → c4r.web_results = []) :=
  C4_confidence_gating simHead qv (tmplA :: tmplB :: [])
    { best_match_index := some 0, confidence := some 2, reasoning := "ok" }
    true "" 1 noSearch (by decide) c4r false rfl

/-- C5 — counterexample. The claim says the returned confidence equals the
oracle's score for any supplied value in [0,1]; but when the oracle supplies
exactly 0, `llm_result.get("confidence") or 0.5` replaces it with 0.5. -/
theorem C5_counterexample :
    Except.map (fun p => p.1.confidence)
        (match_template simHead qv (tmplA :: [])
          { best_match_index := some 0, confidence := some 0, reasoning := "r" }
          false "" 1 noSearch) = Except.ok ((1 : ℚ) / 2) ∧
    ((1 : ℚ) / 2 ≠ 0) := by
  constructor
  · rfl
  · norm_num

/-- C5 — witness for the amended theorem: a supplied nonzero confidence is
passed through unchanged. -/
theorem C5_witness : c4r.confidence = 2 :=
  (C5_arbiter_defaults simHead qv (tmplA :: tmplB :: [])
    { best_match_index := some 0, confidence := some 2, reasoning := "ok" }
    true "" 1 noSearch (by decide) c4r false rfl).2.2.1
    2 rfl (by decide)

/-- C6 — counterexample. With two candidates and the oracle selecting index
1, the chosen best_match (the lease template) itself appears in the
alternatives list `top_candidates[1:4]`, contradicting the claim that the
alternatives never contain the chosen best_match. -/
theorem C6_counterexample :
    Except.map (fun p => (p.1.best_match, p.1.alternatives.map (fun c => c.tmpl)))
        (match_template simHead qv (tmplA :: tmplB :: [])
          { best_match_index := some 1, confidence := some 2, reasoning := "x" }
          true "" 1 noSearch) =
      Except.ok (some tmplB, tmplB :: []) ∧
    tmplB ∈ (tmplB :: []) := by
  constructor
  · rfl
  · decide

/-- The result record of the concrete index-1 match used by the C6 witness. -/
def c6r : MatchResult :=
  { best_match := some tmplB, confidence := 2, reasoning := "x",
    alternatives := { tmpl := tmplB, sim := 0 } :: [], web_results := [],
    message := "" }

/-- C6 — witness for the amended theorem: the oracle picked index 1, so the
chosen candidate is both the best_match and a member of the alternatives. -/
theorem C6_witness :
    c6r.best_match = some ({ tmpl := tmplB, sim := 0 } : Cand).tmpl ∧
    ({ tmpl := tmplB, sim := 0 } : Cand) ∈ c6r.alternatives :=
  (C6_alternatives_runners_up simHead qv (tmplA :: tmplB :: [])
    { best_match_index := some 1, confidence := some 2, reasoning := "x" }
    true "" 1 noSearch (by decide) c6r false rfl).2
    1 rfl (by decide) (by decide) { tmpl := tmplB, sim := 0 } (by decide)

/-- C10 — witness: one ranked candidate, oracle index 5 — the match
operation ends in the IndexError outcome. -/
theorem C10_witness :
    match_template simHead qv (tmplA :: [])
      { best_match_index := some 5, confidence := some 2, reasoning := "y" }
      true "" 1 noSearch = Except.error MatchErr.indexError :=
  C10_oracle_index_unvalidated simHead qv (tmplA :: [])
    { best_match_index := some 5, confidence := some 2, reasoning := "y" }
    true "" 1 noSearch (by decide) 5 rfl (by decide) (by decide)

/-! ### Question generation (`GeminiService.generate_questions`) -/

/-- A variable descriptor as passed to question generation (`v.to_dict()`
of a stored Variable; `label`, `description` and `example` may be absent). -/
structure VarDesc where
  key : String
  label : Option String
  description : Option String
  exampleVal : Option String
deriving DecidableEq, Repr

/-- A generated question entry. -/
structure Question where
  variable_key : String
  question : String
  placeholder : String
  help_text : String
deriving DecidableEq, Repr

/-- Python `str.title()` (ASCII): upper-case a letter that follows a
non-letter, lower-case a letter that follows a letter. -/
def titleGo : Bool → List Char → List Char
  | _, [] => []
  | prev, c :: rest =>
    if isAlphaA c then
      (if prev then toLowerA c else toUpperA c) :: titleGo true rest
    else c :: titleGo false rest

def pyTitle (s : List Char) : List Char := titleGo false s

/-- One entry of the `except` fallback of `generate_questions`:
`question = v.get("label", v["key"]).replace("_", " ").title() + "?"`,
`placeholder = f"Enter {v['key']}"`, `help_text = v.get("description", "")`. -/
def mkFallbackQuestion (v : VarDesc) : Question :=
  { variable_key := v.key,
    question := String.mk (pyTitle (replaceAll (v.label.getD v.key).data
      ('_' :: []) (' ' :: [])) ++ ('?' :: [])),
    placeholder := "Enter " ++ v.key,
    help_text := v.description.getD "" }

/-- `GeminiService.generate_questions`: return the oracle's parsed reply
when the call succeeds, and the deterministic per-variable fallback list
when it fails (`oracleReply = none`). -/
def generate_questions (oracleReply : Option (List Question))
    (vs : List VarDesc) : List Question :=
  match oracleReply with
  | some qs => qs
  | none => vs.map mkFallbackQuestion

/-- Concrete variable descriptor for the C9 counterexample. -/
def varPolicy : VarDesc :=
  { key := "policy_number", label := some "Policy Number",
    description := some "The policy number on the schedule",
    exampleVal := some "12345" }

/-- C9 — counterexample. The claim says the fallback placeholder is the
variable's example value; the code uses `f"Enter {v['key']}"` instead: for a
variable with key "policy_number" and example "12345" the fallback
placeholder is "Enter policy_number", not "12345". -/
theorem C9_counterexample :
    (generate_questions none (varPolicy :: [])).map (fun qu => qu.placeholder) =
      ("Enter policy_number" :: []) ∧
    varPolicy.exampleVal = some "12345" ∧
    ("Enter policy_number" : String) ≠ "12345" := by
  refine ⟨rfl, rfl, ?_⟩
  decide

/-- C9 — amended. When the question-generation oracle fails, the fallback
question list contains one entry per variable; its question text is the
Python title-cased rendering of the variable's **label** (falling back to the
key only when the label is absent) with underscores replaced by spaces and a
"?" appended; its placeholder is the literal string "Enter " followed by the
variable key (not the example value); and its help text is the variable's
description. -/
theorem C9_fallback_questions (vs : List VarDesc) :
    (generate_questions none vs).length = vs.length ∧
    (∀ (i : ℕ) (v : VarDesc), vs.get? i = some v →
      (generate_questions none vs).get? i = some
        { variable_key := v.key,
          question := String.mk (pyTitle (replaceAll (v.label.getD v.key).data
            ('_' :: []) (' ' :: [])) ++ ('?' :: [])),
          placeholder := "Enter " ++ v.key,
          help_text := v.description.getD "" }) := by
  constructor
  · simp [generate_questions]
  · intro i v hv
    show (vs.map mkFallbackQuestion).get? i = _
    rw [List.get?_map, hv]
    rfl

/-- C9 — witness: the amended fallback shape at the concrete descriptor. -/
theorem C9_witness :
    (generate_questions none (varPolicy :: [])).get? 0 = some
      { variable_key := varPolicy.key,
        question := String.mk (pyTitle (replaceAll (varPolicy.label.getD varPolicy.key).data
          ('_' :: []) (' ' :: [])) ++ ('?' :: [])),
        placeholder := "Enter " ++ varPolicy.key,
        help_text := varPolicy.description.getD "" } :=
  (C9_fallback_questions (varPolicy :: [])).2 0 varPolicy rfl
